import Mathlib

set_option maxRecDepth 4000

namespace FluxVault

/-! Shallow embedding of the FluxVault repository (Keeper/Agent file
synchronisation system).  Pure data and control flow of the Python source
are translated into executable Lean definitions; filesystem reads, socket
reads and RPC exchanges become explicit inputs, and Python exceptions
become `Option`/`none`. -/

/-! ## Paths

Python `pathlib.Path` values, reduced to an anchor flag plus the list of
name components.  `str()` rendering is injective on normalised paths, so
dictionaries keyed by `str(path)` in the source are modelled as lists
keyed by `PyPath` values directly. -/

/-- Model of a `pathlib.Path`: whether the path is anchored at the
filesystem root, and its name components. -/
structure PyPath where
  abs : Bool
  comps : List String
deriving DecidableEq

instance : BEq PyPath := ⟨fun a b => decide (a = b)⟩

instance : LawfulBEq PyPath where
  eq_of_beq h := of_decide_eq_true h
  rfl := decide_eq_true rfl

/-- Boolean list-prefix test, used to model `Path.is_relative_to` and the
component arithmetic of `Path.relative_to`. -/
def isPre {α : Type} [BEq α] : List α → List α → Bool
  | [], _ => true
  | _ :: _, [] => false
  | a :: as, b :: bs => a == b && isPre as bs

/-- Python `a.is_relative_to(b)`: `b` is an ancestor of `a` or equal to it
(same anchor, components of `b` a prefix of those of `a`). -/
def PyPath.isRelTo (a b : PyPath) : Bool :=
  (a.abs == b.abs) && isPre b.comps a.comps

/-- Python `a / b` (`Path.__truediv__`): an absolute right operand wins,
otherwise components are appended. -/
def pyJoin (a b : PyPath) : PyPath :=
  if b.abs then b else ⟨a.abs, a.comps ++ b.comps⟩

/-- Python `a.relative_to(b)`; `none` models the `ValueError` raised when
`b` is not an ancestor-or-self of `a`. -/
def pyRelTo (a b : PyPath) : Option PyPath :=
  if (a.abs == b.abs) && isPre b.comps a.comps then
    some ⟨false, a.comps.drop b.comps.length⟩
  else none

/-- Strict-ancestor test: `a` is a proper ancestor of `b`. -/
def strictAnc (a b : PyPath) : Bool :=
  b.isRelTo a && !(a.isRelTo b)

/-! ## C1: FileSystemeGroup.filter_hierarchy (fluxvault/fluxapp_config.py)

The source iterates over a copy of the list while mutating the original
with `list.remove` / `list.append`; the fold below iterates the copy (the
fold list) against the mutating accumulator. -/

/-- Loop body of `filter_hierarchy`: one iteration of the `for` loop over
the copied list, mutating the live list `acc`. -/
def fhStep (current : PyPath) (acc : List PyPath) (e : PyPath) : List PyPath :=
  if current.isRelTo e then acc
  else if e.isRelTo current then acc.erase e ++ [current]
  else acc

/-- Embedding of `FileSystemeGroup.filter_hierarchy(current_path,
existing_paths)`: for each entry of a copy of the list, if the current
path is relative to the entry nothing happens; otherwise if the entry is
relative to the current path, the entry is removed from the live list and
the current path appended. -/
def filter_hierarchy (current : PyPath) (existing : List PyPath) : List PyPath :=
  List.foldl (fhStep current) existing existing

/-- Statement of claim C1's expected behaviour, written from the spec's
words: drop P if an ancestor is present, replace descendants by a single
occurrence of P, otherwise append P. -/
def filter_hierarchy_claimed (current : PyPath) (existing : List PyPath) : List PyPath :=
  if existing.any (fun e => strictAnc e current) then existing
  else if existing.any (fun e => strictAnc current e) then
    existing.filter (fun e => !(strictAnc current e)) ++ [current]
  else existing ++ [current]

/-- No pair (a, b) of members with a a strict ancestor of b. -/
def noAncPair (E : List PyPath) : Prop :=
  ∀ a ∈ E, ∀ b ∈ E, strictAnc a b = false

instance (E : List PyPath) : Decidable (noAncPair E) := by
  unfold noAncPair; infer_instance

/-! ## C6: wire framing (socketservertransport.py / socketclienttransport.py)

Byte strings are lists of byte values.  `readuntil` on the asyncio stream
reader consumes bytes up to and including the first occurrence of the
separator; `bytes.rstrip(sep)` strips every trailing byte that belongs to
the separator byte set. -/

/-- The 6-byte frame marker of both transports, the bytes of the literal
marker used on the wire. -/
def seperator : List Nat := [60, 63, 33, 33, 63, 62]

/-- Model of `asyncio.StreamReader.readuntil(separator)`: the consumed
bytes including the first occurrence of the separator; `none` models
`IncompleteReadError` when the separator never occurs. -/
def readUntil (sep : List Nat) : List Nat → Option (List Nat)
  | [] => none
  | b :: rest =>
    if isPre sep (b :: rest) then some sep
    else (readUntil sep rest).map (fun t => b :: t)

/-- Occurrence of `sep` as a contiguous subsequence. -/
def occursIn (sep : List Nat) : List Nat → Bool
  | [] => isPre sep ([] : List Nat)
  | b :: rest => isPre sep (b :: rest) || occursIn sep rest

/-- Model of Python `bytes.rstrip(strip)`: remove every trailing byte
that is a member of the strip byte set. -/
def rstripSet (strip : List Nat) (l : List Nat) : List Nat :=
  (l.reverse.dropWhile (fun b => strip.contains b)).reverse

/-- Embedding of `send_message` framing (both transports): the payload
followed by the separator. -/
def send_message (m : List Nat) : List Nat := m ++ seperator

/-- Embedding of the framing steps of `receive_on_socket` /
`wait_for_message` in plain mode: read up to the separator, then
`data.rstrip(self.seperator)`. -/
def receive_on_socket (stream : List Nat) : Option (List Nat) :=
  (readUntil seperator stream).map (fun data => rstripSet seperator data)

/-! ## C3: server side of the RSA/AES handshake (socketservertransport.py)

The AES decryption of the client reply is an input here: the claim is
about what the server does with the decrypted JSON object.  A JSON object
with string values is an association list. -/

/-- Python `dict.get(k)` on a string-valued JSON object. -/
def jsonGet (d : List (String × String)) (k : String) : Option String :=
  (d.find? (fun kv => kv.1 == k)).map (fun kv => kv.2)

/-- Python `s[::-1]`. -/
def strRev (s : String) : String := String.mk s.data.reverse

/-- The check `encrypt_socket` performs on the decrypted client reply:
text equals "TestEncryptionMessageResponse" and fill equals the reversed
fill that was sent; exactly then is the socket marked encrypted. -/
def encrypt_socket_check (fillSent : String) (resp : List (String × String)) : Bool :=
  (jsonGet resp "text" == some "TestEncryptionMessageResponse")
    && (jsonGet resp "fill" == some (strRev fillSent))

/-- Connection state of `handle_client` right after `encrypt_socket`
returns: the encrypted flag, and whether the handler proceeds into its
receive-and-serve loop. -/
structure ServerConn where
  encrypted : Bool
  serving : Bool
deriving DecidableEq

/-- Embedding of `handle_client` after the handshake: `encrypt_socket`
sets the encrypted flag from its check and returns; `handle_client` then
unconditionally enters the message loop (`running = true`), whatever the
outcome of the check was. -/
def handle_client (fillSent : String) (resp : List (String × String)) : ServerConn :=
  { encrypted := encrypt_socket_check fillSent resp, serving := true }

/-! ## C4: client side of the handshake (socketclienttransport.py)

Ciphertexts of the ideal ciphers are modelled symbolically; the claim is
about the lengths and the flow of the keys, not about AES or RSA
internals. -/

/-- Symbolic ciphertext of the two ideal ciphers used by the handshake. -/
inductive CipherText where
  | rsaOaep (pubkey : Nat) (plain : List Nat)
  | aesEax (key : List Nat) (plain : List Nat)
deriving DecidableEq

/-- The handshake envelope `enc_session_key / nonce / tag / cipher` sent
by `encrypt_data`. -/
structure RsaEnvelope where
  enc_session_key : CipherText
  nonce : List Nat
  tag : List Nat
  cipher : CipherText
deriving DecidableEq

/-- ASCII code of the lowercase hex digit of a value below 16, as
produced by Python `bytes.hex()`. -/
def hexDigitCode (n : Nat) : Nat := if n < 10 then 48 + n else 87 + n

/-- Model of `bs.hex().encode("utf-8")`: two lowercase-hex ASCII bytes
per input byte. -/
def hexBytes : List Nat → List Nat
  | [] => []
  | b :: r => hexDigitCode (b / 16) :: hexDigitCode (b % 16) :: hexBytes r

/-- Embedding of `SocketClientTransport.encrypt_data(keypem, data)`: a
fresh 16-byte `session_key` (passed in as the value `get_random_bytes(16)`
produced) is encrypted under the peer RSA key with OAEP, and `data` is
AES-EAX encrypted under that fresh key; nonce and tag accompany the
envelope. -/
def encrypt_data (pubkey : Nat) (session_key : List Nat) (data : List Nat)
    (nonce tag : List Nat) : RsaEnvelope :=
  { enc_session_key := CipherText.rsaOaep pubkey session_key
    nonce := nonce
    tag := tag
    cipher := CipherText.aesEax session_key data }

/-- Embedding of the key-establishing part of `setup_encryption`: the
session key the client keeps (`self.aeskey`) is
`get_random_bytes(16).hex().encode("utf-8")` for random bytes `r16`, and
the envelope sent is `encrypt_data(rsa_public_key, self.aeskey)` with the
fresh transport key `rsk`.  Returns the kept session key and the sent
envelope. -/
def setup_encryption (r16 rsk : List Nat) (pubkey : Nat) (nonce tag : List Nat) :
    List Nat × RsaEnvelope :=
  let aeskey := hexBytes r16
  (aeskey, encrypt_data pubkey rsk aeskey nonce tag)

/-- Embedding of the encryption applied by `send_message` /
`encrypt_aes_data` to every frame once `self.encrypted` is set: AES-EAX
under the kept session key. -/
def client_frame (aeskey : List Nat) (message : List Nat) : CipherText :=
  CipherText.aesEax aeskey message

/-! ## C2 and C5: per-directive state manager and the keeper sync pipeline
(fluxvault/fluxapp_config.py and fluxvault/fluxkeeper.py)

`FileSystemEntry` of fluxapp_config.py carries the per-directive state;
the keeper functions address the same state through `FsEntryStateManager`
(whose class body lives in a module not present in the source tree; its
attributes are those named in the spec and used by the keeper code, with
`root` the fake-root path `root()` returns).  RPC results (the remote
hash dictionaries) and local filesystem hashes are explicit inputs. -/

/-- The three sync strategies of helpers.SyncStrategy. -/
inductive SyncStrategy where
  | STRICT
  | ALLOW_ADDS
  | ENSURE_CREATED
deriving DecidableEq

/-- Per-directive, per-agent state: the CRC and flag attributes of
`FileSystemEntry` / `FsEntryStateManager` that the sync pipeline reads
and writes, plus the directive's strategy (`remit.sync_strategy`) and the
fake-root path returned by `root()` that `get_extra_objects` joins remote
names onto. -/
structure FsEntryStateManager where
  name : String := ""
  sync_strategy : SyncStrategy := SyncStrategy.STRICT
  root : PyPath := ⟨true, []⟩
  local_crc : Nat := 0
  remote_crc : Nat := 0
  validated_remote_crc : Nat := 0
  in_sync : Bool := false
  local_object_exists : Bool := false
  remote_object_exists : Bool := false
deriving DecidableEq

/-- Embedding of `FileSystemEntry.compare_objects`: an early return when
the local object is missing; when the remote CRC is 0 the remote object
is marked missing and, if a local CRC exists, the method returns; then
the remote object is marked existing and `in_sync` is recomputed from the
CRC comparison (on a mismatch both inner branches return right after
setting `in_sync = False`, since `local_object_exists` is true here). -/
def compare_objects (s : FsEntryStateManager) : FsEntryStateManager :=
  if s.local_object_exists = false then s
  else if s.remote_crc = 0 ∧ s.local_crc ≠ 0 then
    { s with remote_object_exists := false }
  else
    let s1 := { s with remote_object_exists := true }
    if s1.remote_crc ≠ s1.local_crc then { s1 with in_sync := false }
    else { s1 with in_sync := true }

/-- Embedding of the state mutation of
`FluxAppManager.resolve_file_state`: after issuing the transfer RPC
(which does not touch the manager), the manager is marked in sync and the
remote object existing; no CRC field is updated. -/
def resolve_file_state (s : FsEntryStateManager) : FsEntryStateManager :=
  { s with in_sync := true, remote_object_exists := true }

/-- Python `dict.get` on a hash dictionary keyed by `str(path)`; keys are
modelled as path values (`str` is injective on normalised paths). -/
def dictGet (d : List (PyPath × Nat)) (k : PyPath) : Option Nat :=
  (d.find? (fun kv => kv.1 == k)).map (fun kv => kv.2)

/-- Loop of `FluxAppManager.get_missing_or_modified_objects` over the
local hash dictionary, carrying candidates, missing count and modified
count; `none` models the `ValueError` of `relative_to` when a local key
does not extend the fake root. -/
def gmmGo (root : PyPath) (remoteHashes : List (PyPath × Nat)) :
    List (PyPath × Nat) → List PyPath → Nat → Nat → Option (List PyPath × Nat × Nat)
  | [], cands, missing, modified => some (cands, missing, modified)
  | (lp, lcrc) :: rest, cands, missing, modified =>
    match pyRelTo lp root with
    | none => none
    | some rel =>
      let remoteAbs := pyJoin ⟨true, []⟩ rel
      match dictGet remoteHashes remoteAbs with
      | none => gmmGo root remoteHashes rest (cands ++ [lp]) (missing + 1) modified
      | some rcrc =>
        if rcrc ≠ lcrc then
          gmmGo root remoteHashes rest (cands ++ [lp]) missing (modified + 1)
        else gmmGo root remoteHashes rest cands missing modified

/-- Embedding of `FluxAppManager.get_missing_or_modified_objects`. -/
def get_missing_or_modified_objects (root : PyPath)
    (localHashes remoteHashes : List (PyPath × Nat)) : Option (List PyPath × Nat × Nat) :=
  gmmGo root remoteHashes localHashes [] 0 0

/-- Loop of `FluxAppManager.get_extra_objects` over the remote hash
dictionary: a remote name absent locally seeds the extras list when it is
empty and is then pushed through `filter_hierarchy`. -/
def geoGo (root : PyPath) (localHashes : List (PyPath × Nat)) :
    List (PyPath × Nat) → List PyPath → Nat → Option (List PyPath × Nat)
  | [], extras, count => some (extras, count)
  | (rn, _) :: rest, extras, count =>
    match pyRelTo rn ⟨true, []⟩ with
    | none => none
    | some rel =>
      let target := pyJoin root rel
      match dictGet localHashes target with
      | some _ => geoGo root localHashes rest extras count
      | none =>
        let extras1 := if extras.isEmpty then extras ++ [rn] else extras
        geoGo root localHashes rest (filter_hierarchy rn extras1) (count + 1)

/-- Embedding of `FluxAppManager.get_extra_objects`. -/
def get_extra_objects (root : PyPath)
    (localHashes remoteHashes : List (PyPath × Nat)) : Option (List PyPath × Nat) :=
  geoGo root localHashes remoteHashes [] 0

/-- Embedding of `FluxAppManager.resolve_object_deltas`. -/
def resolve_object_deltas (root : PyPath)
    (localHashes remoteHashes : List (PyPath × Nat)) : Option (List PyPath × List PyPath) := do
  let (cands, _missing, _modified) ← get_missing_or_modified_objects root localHashes remoteHashes
  let (extras, _unknown) ← get_extra_objects root localHashes remoteHashes
  some (cands, extras)

/-- Agent-side RPCs issued by `resolve_directory_state`. -/
inductive KeeperCall where
  | remove_objects (paths : List PyPath)
  | sync_whole
  | sync_fragments (frags : List PyPath)
deriving DecidableEq

/-- Embedding of `FluxAppManager.resolve_directory_state`: an early
whole-object sync when the remote CRC is 0; otherwise the deltas are
computed, the extras are removed only under STRICT with a nonempty list,
and in the `elif SyncStrategy.ALLOW_ADDS:` branch — whose condition is
the enum member itself, hence always truthy — the validated CRC memo is
recorded; finally the manager is marked in sync and existing, and the
fragments are returned (and transferred when nonempty). -/
def resolve_directory_state (s : FsEntryStateManager)
    (localHashes remoteHashes : List (PyPath × Nat)) :
    Option (FsEntryStateManager × List PyPath × List KeeperCall) :=
  if s.remote_crc = 0 then some (s, [], [KeeperCall.sync_whole])
  else
    match resolve_object_deltas s.root localHashes remoteHashes with
    | none => none
    | some (frags, toRemove) =>
      let strictRemoval := s.sync_strategy = SyncStrategy.STRICT ∧ toRemove ≠ []
      let s1 := if strictRemoval then s
        else { s with validated_remote_crc := s.remote_crc }
      let calls :=
        (if strictRemoval then [KeeperCall.remove_objects toRemove] else [])
          ++ (if frags ≠ [] then [KeeperCall.sync_fragments frags] else [])
      some ({ s1 with in_sync := true, remote_object_exists := true }, frags, calls)

/-- The spec's per-manager invariant: out of sync, or CRCs agree, or the
ALLOW_ADDS memo applies. -/
def managerInv (s : FsEntryStateManager) : Prop :=
  s.in_sync = false ∨ s.local_crc = s.remote_crc ∨ s.validated_remote_crc = s.remote_crc

instance (s : FsEntryStateManager) : Decidable (managerInv s) := by
  unfold managerInv; infer_instance

/-- Sample manager for concrete evaluation: out of sync, differing CRCs,
no memo. -/
def sampleManager : FsEntryStateManager := { local_crc := 1, remote_crc := 2 }

/-- The state `resolve_directory_state` produces from `sampleManager` on
empty hash dictionaries. -/
def sampleManagerAfter : FsEntryStateManager :=
  { local_crc := 1, remote_crc := 2, validated_remote_crc := 2, in_sync := true,
    remote_object_exists := true }

/-! ## C7: FluxAgent.load_plugins (fluxvault/fluxagent.py)

A plugin module in the scanned directory, as seen after a successful
import: whether its `plugin` attribute is a `FluxVaultExtensions`
instance, its declared required packages, and whether `pip install` of
those packages succeeds. -/

/-- One plugin module of the scanned directory. -/
structure PluginModule where
  plugin_name : String
  is_extensions : Bool
  required_packages : List String
  install_ok : Bool
deriving DecidableEq

/-- Embedding of the registration loop of `FluxAgent.load_plugins`: a
non-extensions object is skipped with an error log; declared packages are
pip-installed, and a `CalledProcessError` logs an error and executes
`return` — ending the whole method, not just this iteration.  Returns
the names registered via `add_plugin`. -/
def load_plugins : List PluginModule → List String
  | [] => []
  | p :: rest =>
    if p.is_extensions then
      if p.required_packages ≠ [] ∧ p.install_ok = false then []
      else p.plugin_name :: load_plugins rest
    else load_plugins rest

/-! ## C8: FluxAppManager.sync_remote_object (fluxvault/fluxkeeper.py) -/

/-- Kind of a filesystem entry as probed by `is_dir()` / `is_file()`. -/
inductive FsKind where
  | dir
  | file
  | other
deriving DecidableEq

/-- One object fragment handed to `sync_remote_object`: its local path,
its kind on disk, and its content when it is a file. -/
structure Frag where
  path : PyPath
  kind : FsKind
  data : List Nat
deriving DecidableEq

/-- Agent RPCs issued by `sync_remote_object`: inline writes, and the
transport bulk-stream call for the collected (local, remote) pairs. -/
inductive AgentCall where
  | write_object (path : PyPath) (is_dir : Bool) (data : List Nat)
  | stream_files (pairs : List (PyPath × PyPath))
deriving DecidableEq

/-- The inline-transfer ceiling of `sync_remote_object`. -/
def MAX_INBAND_FILESIZE : Nat := 1048576 * 50

/-- Last name component of a path (`Path.name`). -/
def lastComp (l : List String) : String := l.getLastD ""

/-- The absolute remote path computed per fragment by
`sync_remote_object`: fragments other than the managed object itself are
re-rooted under the remote directory via `relative_to`; the object itself
goes to `remote_dir / fs_entry.name`. -/
def absRemotePath (remoteDir base : PyPath) (f : PyPath) : Option PyPath :=
  if f ≠ base then (pyRelTo f base).map (fun rel => pyJoin remoteDir rel)
  else some (pyJoin remoteDir ⟨false, [lastComp f.comps]⟩)

/-- Loop of `sync_remote_object` over the fragments: directories always
get an inline `write_object(…, True, b"")`; files are written inline when
`inband` and collected for streaming otherwise; paths that are neither
fall through silently. -/
def syncGo (remoteDir base : PyPath) (inband : Bool) :
    List Frag → Option (List AgentCall × List (PyPath × PyPath))
  | [] => some ([], [])
  | f :: rest => do
    let abs ← absRemotePath remoteDir base f.path
    let (calls, toStream) ← syncGo remoteDir base inband rest
    match f.kind with
    | FsKind.dir => some (AgentCall.write_object abs true [] :: calls, toStream)
    | FsKind.file =>
      if inband then some (AgentCall.write_object abs false f.data :: calls, toStream)
      else some (calls, (f.path, abs) :: toStream)
    | FsKind.other => some (calls, toStream)

/-- Embedding of `FluxAppManager.sync_remote_object` after its size
computation: `inband` holds exactly when `size < MAX_INBAND_FILESIZE`,
and the bulk-stream call is appended when anything was collected. -/
def sync_remote_object (remoteDir base : PyPath) (size : Nat) (frags : List Frag) :
    Option (List AgentCall) := do
  let inband := size < MAX_INBAND_FILESIZE
  let (calls, toStream) ← syncGo remoteDir base (decide inband) frags
  if toStream.isEmpty then some calls
  else some (calls ++ [AgentCall.stream_files toStream])

/-- Whether a call list is an inline transfer: it contains no bulk-stream
call. -/
def inlineOnly (calls : List AgentCall) : Bool :=
  calls.all (fun c => match c with
    | AgentCall.stream_files _ => false
    | _ => true)

/-! ## C9 and C10: agent filesystem methods (fluxvault/fluxagent.py)

The agent's filesystem is a tree of files (byte contents) and directories
(named children); the agent's working directory is an absolute component
list.  CRC-32 is implemented bit by bit exactly as `binascii.crc32`. -/

/-- One step of the reflected CRC-32 polynomial division. -/
def crc32Bit (c : Nat) : Nat := if c % 2 = 1 then (c / 2) ^^^ 0xEDB88320 else c / 2

/-- One input byte of CRC-32: xor into the register, then eight
polynomial steps. -/
def crc32Byte (c b : Nat) : Nat :=
  crc32Bit (crc32Bit (crc32Bit (crc32Bit
    (crc32Bit (crc32Bit (crc32Bit (crc32Bit (c ^^^ b))))))))

/-- The model of `binascii.crc32(data, crc)`: complement in, fold the
bytes, complement out, on a 32-bit register. -/
def crc32 (data : List Nat) (crc : Nat) : Nat :=
  (data.foldl crc32Byte ((crc % 4294967296) ^^^ 4294967295)) ^^^ 4294967295

/-- Bytes of a name as hashed by `name.encode()` (names are ASCII in this
model, so code points are the encoded bytes). -/
def strBytes (s : String) : List Nat := s.data.map Char.toNat

/-- A node of the agent's filesystem: a file with its contents, or a
directory with its named children. -/
inductive FsNode where
  | file (data : List Nat)
  | dir (children : List (String × FsNode))

/-- Child lookup by name in a directory. -/
def findChild (nm : String) : List (String × FsNode) → Option FsNode
  | [] => none
  | (n, c) :: rest => if n == nm then some c else findChild nm rest

/-- Resolve an absolute component list against the filesystem root;
`none` models a path that does not exist. -/
def lookupNode : FsNode → List String → Option FsNode
  | n, [] => some n
  | FsNode.file _, _ :: _ => none
  | FsNode.dir ch, c :: rest =>
    match findChild c ch with
    | some sub => lookupNode sub rest
    | none => none

/-- `str()` rendering of a path, used as the sort key of `iterdir`
traversal. -/
def pathStr (p : PyPath) : String :=
  (if p.abs then "/" else "") ++ String.intercalate "/" p.comps

/-- Python `str.lower()` (ASCII model). -/
def strLower (s : String) : String := String.mk (s.data.map Char.toLower)

/-- The sort key the agent uses on `iterdir` output:
`str(full path).lower()`. -/
def childSortKey (comps : List String) (e : String × FsNode) : String :=
  strLower (pathStr ⟨true, comps ++ [e.1]⟩)

/-- Stable insertion of an element into a key-sorted list, placing it
before the first entry whose key is not smaller. -/
def insertSorted (key : String × FsNode → String) (x : String × FsNode) :
    List (String × FsNode) → List (String × FsNode)
  | [] => [x]
  | y :: r => if key y < key x then y :: insertSorted key x r else x :: y :: r

/-- Stable sort by key, modelling Python `sorted`. -/
def sortByKey (key : String × FsNode → String) : List (String × FsNode) →
    List (String × FsNode)
  | [] => []
  | x :: r => insertSorted key x (sortByKey key r)

/-- Children of the directory at `comps` in traversal order. -/
def sortChildren (comps : List String) (ch : List (String × FsNode)) :
    List (String × FsNode) :=
  sortByKey (childSortKey comps) ch

mutual

/-- Number of nodes of a subtree; exceeds its nesting depth, so it serves
as recursion fuel for the directory walks. -/
def FsNode.count : FsNode → Nat
  | FsNode.file _ => 1
  | FsNode.dir ch => 1 + countKids ch

/-- Node count of a child list. -/
def countKids : List (String × FsNode) → Nat
  | [] => 0
  | e :: r => FsNode.count e.2 + countKids r

end

mutual

/-- Fuelled embedding of the recursion of
`FluxAgent.get_directory_hashes` on an existing directory: the
directory's own entry keyed by its absolute path with
`binascii.crc32(p.name.encode())`, then the sorted children — files via
`get_file_hash`, directories recursively.  Fuel only bounds the
directory nesting depth; every caller passes a bound that exceeds it. -/
def gatherDirF : Nat → List String → List (String × FsNode) → List (PyPath × Nat)
  | 0, _, _ => []
  | fuel + 1, comps, ch =>
    (⟨true, comps⟩, crc32 (strBytes (lastComp comps)) 0)
      :: gatherKidsF fuel comps (sortChildren comps ch)

/-- The loop over one directory's sorted children. -/
def gatherKidsF : Nat → List String → List (String × FsNode) → List (PyPath × Nat)
  | _, _, [] => []
  | fuel, comps, (n, FsNode.file d) :: rest =>
    (⟨true, comps ++ [n]⟩, crc32 d 0) :: gatherKidsF fuel comps rest
  | fuel, comps, (n, FsNode.dir ch2) :: rest =>
    gatherDirF fuel (comps ++ [n]) ch2 ++ gatherKidsF fuel comps rest

end

mutual

/-- Fuelled embedding of `FluxAgent.crc_directory`: the directory's own
name is hashed into the accumulator, then each sorted child hashes its
name followed by its file contents or its recursive directory hash. -/
def crcDirF : Nat → List String → List (String × FsNode) → Nat → Nat
  | 0, _, _, crc => crc
  | fuel + 1, comps, ch, crc =>
    crcKidsF fuel comps (sortChildren comps ch) (crc32 (strBytes (lastComp comps)) crc)

/-- The accumulator loop of `crc_directory` over sorted children. -/
def crcKidsF : Nat → List String → List (String × FsNode) → Nat → Nat
  | _, _, [], crc => crc
  | fuel, comps, (n, FsNode.file d) :: rest, crc =>
    crcKidsF fuel comps rest (crc32 d (crc32 (strBytes n) crc))
  | fuel, comps, (n, FsNode.dir ch2) :: rest, crc =>
    crcKidsF fuel comps rest (crcDirF fuel (comps ++ [n]) ch2 (crc32 (strBytes n) crc))

end

/-- Resolution of a method argument path against the agent's working
directory (`if not p.is_absolute(): p = self.working_dir / p`). -/
def resolveAgentPath (wd : List String) (p : PyPath) : PyPath :=
  if p.abs then p else ⟨true, wd ++ p.comps⟩

/-- The result dictionary entry of `FluxAgent.get_object_crc`. -/
structure ObjHash where
  name : PyPath
  crc32 : Nat
deriving DecidableEq

/-- Embedding of `FluxAgent.get_object_crc`: relative paths resolve
against the working directory; a missing path reports CRC 0;
directories and files hash via `crc_directory` / `crc_file` with seed
0. -/
def get_object_crc (root : FsNode) (wd : List String) (path : PyPath) : ObjHash :=
  match lookupNode root (resolveAgentPath wd path).comps with
  | none => { name := path, crc32 := 0 }
  | some (FsNode.dir ch) =>
    { name := path,
      crc32 := crcDirF (FsNode.count (FsNode.dir ch)) (resolveAgentPath wd path).comps ch 0 }
  | some (FsNode.file d) => { name := path, crc32 := crc32 d 0 }

/-- Embedding of `FluxAgent.get_all_object_hashes`. -/
def get_all_object_hashes (root : FsNode) (wd : List String)
    (objects : List PyPath) : List ObjHash :=
  objects.map (get_object_crc root wd)

/-- The key rewrite `str(Path(k).relative_to(self.working_dir))` applied
to every entry when the input path was relative; `none` models the
`ValueError` when a key does not extend the working directory. -/
def relKeys (wd : List String) : List (PyPath × Nat) → Option (List (PyPath × Nat))
  | [] => some []
  | kv :: rest =>
    match pyRelTo kv.1 ⟨true, wd⟩ with
    | none => none
    | some r => (relKeys wd rest).map (fun t => (r, kv.2) :: t)

/-- Embedding of `FluxAgent.get_directory_hashes`: resolve, return the
empty dictionary for a missing path, raise on a non-directory
(`iterdir`), gather the per-descendant hashes, and rewrite every key
relative to the working directory exactly when the input was
relative. -/
def get_directory_hashes (root : FsNode) (wd : List String) (d : PyPath) :
    Option (List (PyPath × Nat)) :=
  match lookupNode root (resolveAgentPath wd d).comps with
  | none => some []
  | some (FsNode.file _) => none
  | some (FsNode.dir ch) =>
    if d.abs then
      some (gatherDirF (FsNode.count (FsNode.dir ch)) (resolveAgentPath wd d).comps ch)
    else relKeys wd (gatherDirF (FsNode.count (FsNode.dir ch)) (resolveAgentPath wd d).comps ch)

/-- Replace the child named `nm` (used when an existing subtree is
rebuilt by `mkdir`). -/
def setChild (nm : String) (v : FsNode) : List (String × FsNode) → List (String × FsNode)
  | [] => []
  | (n, c) :: rest => if n == nm then (n, v) :: rest else (n, c) :: setChild nm v rest

/-- Model of `Path.mkdir(parents=True, exist_ok=True)` along an absolute
component list: missing directories are created, existing ones kept;
`none` models the exception raised when a file blocks the path. -/
def mkdirP : FsNode → List String → Option FsNode
  | FsNode.dir ch, [] => some (FsNode.dir ch)
  | FsNode.file _, [] => none
  | FsNode.file _, _ :: _ => none
  | FsNode.dir ch, c :: rest =>
    match findChild c ch with
    | some sub => (mkdirP sub rest).map (fun sub2 => FsNode.dir (setChild c sub2 ch))
    | none => (mkdirP (FsNode.dir []) rest).map (fun sub2 => FsNode.dir (ch ++ [(c, sub2)]))

/-- Model of `open(p, "wb").write(data)`: overwrite or create the file at
the path; `none` models the exceptions (target is a directory, missing
parent, writing to the root). -/
def setFileAt : FsNode → List String → List Nat → Option FsNode
  | _, [], _ => none
  | FsNode.file _, _ :: _, _ => none
  | FsNode.dir ch, [c], data =>
    match findChild c ch with
    | some (FsNode.dir _) => none
    | some (FsNode.file _) => some (FsNode.dir (setChild c (FsNode.file data) ch))
    | none => some (FsNode.dir (ch ++ [(c, FsNode.file data)]))
  | FsNode.dir ch, c :: c2 :: rest, data =>
    match findChild c ch with
    | some sub => (setFileAt sub (c2 :: rest) data).map (fun s2 => FsNode.dir (setChild c s2 ch))
    | none => none

/-- Model of `tarfile.extractall(str(p))` for a successfully opened
archive: each member (relative path, contents) is placed under the
target directory, creating directories as needed; members whose
placement fails are skipped. -/
def extractAll (root : FsNode) (base : List String)
    (entries : List (List String × List Nat)) : FsNode :=
  entries.foldl
    (fun acc e =>
      match mkdirP acc (base ++ e.1).dropLast with
      | some acc2 =>
        match setFileAt acc2 (base ++ e.1) e.2 with
        | some acc3 => acc3
        | none => acc2
      | none => acc)
    root

/-- The object mapping received by `FluxAgent.write_object`: target path,
directory flag, raw data bytes, and the optional `uncompressed` flag
(`obj.get("uncompressed", False)`). -/
structure WriteObj where
  path : PyPath
  is_dir : Bool
  data : List Nat
  uncompressed : Bool

/-- Tail of `write_object` after the directory handling: the
`uncompressed` branch writes the bytes and swallows every exception with
an error log; the tarball branch extracts the archive into the path when
`tarfile` can open the data (`tarRes` carries the decoded members of the
external library, `none` when opening raises), and on failure prints the
error and falls through, returning normally with nothing written. -/
def writeTail (r : FsNode) (p : PyPath) (obj : WriteObj)
    (tarRes : Option (List (List String × List Nat))) : Option (FsNode × Unit) :=
  if obj.uncompressed then
    match setFileAt r p.comps obj.data with
    | some r2 => some (r2, ())
    | none => some (r, ())
  else
    match tarRes with
    | some entries => some (extractAll r p.comps entries, ())
    | none => some (r, ())

/-- Embedding of `FluxAgent.write_object`: resolve the path, create the
parent directories (`none` models the propagated exception when that
raises), create the directory itself and return when `is_dir` with empty
data, and otherwise fall through to `writeTail`. -/
def write_object (root : FsNode) (wd : List String) (obj : WriteObj)
    (tarRes : Option (List (List String × List Nat))) : Option (FsNode × Unit) :=
  match mkdirP root (resolveAgentPath wd obj.path).comps.dropLast with
  | none => none
  | some r1 =>
    if obj.is_dir then
      match mkdirP r1 (resolveAgentPath wd obj.path).comps with
      | none => none
      | some r2 =>
        if obj.data.isEmpty then some (r2, ())
        else writeTail r2 (resolveAgentPath wd obj.path) obj tarRes
    else writeTail r1 (resolveAgentPath wd obj.path) obj tarRes

/-- Sample agent filesystem for concrete evaluation. -/
def sampleFs : FsNode :=
  FsNode.dir [("app", FsNode.dir [("docs", FsNode.dir [("a.txt", FsNode.file [104, 105])])])]

/-- The children of the sample docs directory. -/
def sampleDocsChildren : List (String × FsNode) := [("a.txt", FsNode.file [104, 105])]

/-- A sample write_object mapping: relative file path, not a directory,
no uncompressed flag. -/
def sampleWriteObj : WriteObj :=
  { path := ⟨false, ["newdir", "x.bin"]⟩, is_dir := false, data := [9], uncompressed := false }

/-- The sample filesystem after the parent directories of the sample
write have been created. -/
def sampleFsMk : FsNode :=
  FsNode.dir [("app", FsNode.dir
    [("docs", FsNode.dir [("a.txt", FsNode.file [104, 105])]), ("newdir", FsNode.dir [])])]

end FluxVault

namespace FluxVault

/-! ## Theorems -/

theorem isPre_refl {α : Type} [BEq α] [LawfulBEq α] (l : List α) : isPre l l = true := by
  induction l with
  | nil => rfl
  | cons a as ih => simp [isPre, ih]

theorem isPre_iff {α : Type} [BEq α] [LawfulBEq α] (u v : List α) :
    isPre u v = true ↔ ∃ t, v = u ++ t := by
  induction u generalizing v with
  | nil => simp [isPre]
  | cons a as ih =>
    cases v with
    | nil => simp [isPre]
    | cons b bs =>
      simp only [isPre, Bool.and_eq_true, beq_iff_eq, ih, List.cons_append]
      constructor
      · rintro ⟨rfl, t, rfl⟩; exact ⟨t, rfl⟩
      · rintro ⟨t, h⟩
        cases h
        exact ⟨rfl, t, rfl⟩

theorem isPre_length {α : Type} [BEq α] [LawfulBEq α] {u v : List α}
    (h : isPre u v = true) : u.length ≤ v.length := by
  obtain ⟨t, rfl⟩ := (isPre_iff u v).mp h
  simp

theorem isPre_append {α : Type} [BEq α] [LawfulBEq α] (u t : List α) :
    isPre u (u ++ t) = true := (isPre_iff u (u ++ t)).mpr ⟨t, rfl⟩

theorem isPre_trans {α : Type} [BEq α] [LawfulBEq α] {u v w : List α}
    (h1 : isPre u v = true) (h2 : isPre v w = true) : isPre u w = true := by
  obtain ⟨t1, rfl⟩ := (isPre_iff u v).mp h1
  obtain ⟨t2, rfl⟩ := (isPre_iff (u ++ t1) w).mp h2
  rw [List.append_assoc]
  exact isPre_append u (t1 ++ t2)

theorem isPre_of_length_ge {α : Type} [BEq α] [LawfulBEq α] {u v : List α}
    (h : isPre u v = true) (hl : v.length ≤ u.length) : u = v := by
  obtain ⟨t, rfl⟩ := (isPre_iff u v).mp h
  have : t = [] := by
    cases t with
    | nil => rfl
    | cons x xs =>
      exfalso
      rw [List.length_append] at hl
      simp only [List.length_cons] at hl
      omega
  simp [this]

theorem strictAnc_iff (a b : PyPath) :
    strictAnc a b = true ↔
      a.abs = b.abs ∧ isPre a.comps b.comps = true ∧ a.comps.length < b.comps.length := by
  simp only [strictAnc, PyPath.isRelTo, Bool.and_eq_true, Bool.not_eq_true',
    beq_iff_eq]
  constructor
  · rintro ⟨⟨hab, hpre⟩, hstrict⟩
    refine ⟨hab.symm, hpre, ?_⟩
    have hle := isPre_length hpre
    rcases Nat.lt_or_ge a.comps.length b.comps.length with h | h
    · exact h
    · exfalso
      have heq : a.comps = b.comps := isPre_of_length_ge hpre h
      rw [hab.symm, heq, isPre_refl] at hstrict
      simp at hstrict
  · rintro ⟨hab, hpre, hlen⟩
    refine ⟨⟨hab.symm, hpre⟩, ?_⟩
    have h2 : isPre b.comps a.comps = false := by
      rcases h : isPre b.comps a.comps with _ | _
      · rfl
      · exfalso; have := isPre_length h; omega
    simp [hab, h2]

theorem strictAnc_irrefl (p : PyPath) : strictAnc p p = false := by
  rcases h : strictAnc p p with _ | _
  · rfl
  · exfalso
    have := (strictAnc_iff p p).mp h
    omega

theorem strictAnc_trans {a b c : PyPath} (h1 : strictAnc a b = true)
    (h2 : strictAnc b c = true) : strictAnc a c = true := by
  obtain ⟨hab, hpre1, hl1⟩ := (strictAnc_iff a b).mp h1
  obtain ⟨hbc, hpre2, hl2⟩ := (strictAnc_iff b c).mp h2
  exact (strictAnc_iff a c).mpr ⟨hab.trans hbc, isPre_trans hpre1 hpre2, hl1.trans hl2⟩

/-- C1 counterexample: with P = /b and E = [/a] (no ancestor relation
either way) the source returns E unchanged and never appends P, contrary
to the claim; and with P = /a and E = [/a/b, /a/c] the result is [/a, /a],
so it does contain duplicates. -/
theorem filter_hierarchy_claim_cex :
    (filter_hierarchy ⟨true, ["b"]⟩ [⟨true, ["a"]⟩]
        ≠ filter_hierarchy_claimed ⟨true, ["b"]⟩ [⟨true, ["a"]⟩]
      ∧ ⟨true, ["b"]⟩ ∉ filter_hierarchy ⟨true, ["b"]⟩ [⟨true, ["a"]⟩])
    ∧ filter_hierarchy ⟨true, ["a"]⟩ [⟨true, ["a", "b"]⟩, ⟨true, ["a", "c"]⟩]
        = [⟨true, ["a"]⟩, ⟨true, ["a"]⟩]
    ∧ ¬ (filter_hierarchy ⟨true, ["a"]⟩
          [⟨true, ["a", "b"]⟩, ⟨true, ["a", "c"]⟩]).Nodup := by
  refine ⟨⟨?_, ?_⟩, ?_, ?_⟩ <;> decide

theorem fhStep_eq (P : PyPath) (acc : List PyPath) (e : PyPath) :
    fhStep P acc e = if strictAnc P e = true then acc.erase e ++ [P] else acc := by
  unfold fhStep strictAnc
  rcases h1 : P.isRelTo e with _ | _ <;> rcases h2 : e.isRelTo P with _ | _ <;> simp [h1, h2]

theorem count_le_count_cons {α : Type} [BEq α] [LawfulBEq α] (a b : α) (l : List α) :
    l.count a ≤ (b :: l).count a := by
  rw [List.count_cons]
  omega

theorem diff_cons_of_forall_ne (m : List PyPath) :
    ∀ (l : List PyPath) (a : PyPath), (∀ v ∈ m, v ≠ a) → (a :: l).diff m = a :: l.diff m := by
  induction m with
  | nil => intro l a _; simp
  | cons v m ih =>
    intro l a hne
    have hva : ¬ (a == v) = true := by
      simp only [beq_iff_eq]
      intro h
      exact hne v (List.mem_cons_self v m) h.symm
    rw [List.diff_cons, List.diff_cons,
      List.erase_cons_tail (by simpa using hva), ih (l.erase v) a
        (fun w hw => hne w (List.mem_cons_of_mem v hw))]

theorem diff_filter_self (p : PyPath → Bool) :
    ∀ l : List PyPath, l.diff (l.filter p) = l.filter (fun a => !(p a)) := by
  intro l
  induction l with
  | nil => simp
  | cons a l ih =>
    by_cases hp : p a = true
    · rw [List.filter_cons_of_pos hp, List.diff_cons, List.erase_cons_head,
        ih, List.filter_cons_of_neg (by simp [hp])]
    · have hp' : p a = false := by simpa using hp
      rw [List.filter_cons_of_neg (by simp [hp']),
        diff_cons_of_forall_ne _ l a ?hne, ih,
        List.filter_cons_of_pos (by simp [hp'])]
      case hne =>
        intro v hv heq
        subst heq
        exact hp (List.of_mem_filter hv)

theorem fh_go_spec (P : PyPath) :
    ∀ (l acc : List PyPath) (k : Nat),
      (∀ e, strictAnc P e = true → l.count e ≤ acc.count e) →
      List.foldl (fhStep P) (acc ++ List.replicate k P) l
        = acc.diff (l.filter (strictAnc P))
            ++ List.replicate (k + l.countP (strictAnc P)) P := by
  intro l
  induction l with
  | nil => intro acc k _; simp
  | cons e l ih =>
    intro acc k hcount
    rw [List.foldl_cons, fhStep_eq]
    by_cases hc : strictAnc P e = true
    · have hmem : e ∈ acc := by
        have h1 := hcount e hc
        rw [List.count_cons_self] at h1
        have : 0 < acc.count e := by omega
        exact List.count_pos_iff.mp this
      have hne : e ≠ P := by
        intro h
        subst h
        rw [strictAnc_irrefl] at hc
        simp at hc
      rw [if_pos hc, List.erase_append_left _ hmem, List.append_assoc,
        ← List.replicate_succ' k P]
      rw [ih (acc.erase e) (k + 1) ?hcount2]
      case hcount2 =>
        intro x hx
        by_cases hxe : x = e
        · subst hxe
          have h1 := hcount x hx
          rw [List.count_cons_self] at h1
          rw [List.count_erase_self]
          omega
        · have h1 := hcount x hx
          rw [List.count_cons_of_ne hxe] at h1
          rw [List.count_erase_of_ne hxe]
          omega
      rw [List.filter_cons_of_pos hc, List.diff_cons,
        List.countP_cons_of_pos (strictAnc P) l hc]
      congr 2
      omega
    · have hc' : strictAnc P e = false := by simpa using hc
      rw [if_neg hc]
      rw [ih acc k ?hcount3]
      case hcount3 =>
        intro x hx
        exact le_trans (count_le_count_cons x e l) (hcount x hx)
      have hcn : ¬ strictAnc P e = true := by simp [hc']
      rw [List.filter_cons_of_neg hcn,
        List.countP_cons_of_neg (strictAnc P) l hcn]

/-- C1 amended: `filter_hierarchy(P, E)` removes every member of E of
which P is a strict ancestor and appends one occurrence of P for each
member removed; every other member — in particular when some member is an
ancestor of P, and also when P is unrelated to every member — is kept
unchanged and P is not appended; consequently the result may contain
duplicate occurrences of P, but when E contains no pair (a, b) with a a
strict ancestor of b, neither does the result. -/
theorem filter_hierarchy_characterization :
    ∀ (P : PyPath) (E : List PyPath),
      filter_hierarchy P E
        = E.filter (fun e => !(strictAnc P e))
            ++ List.replicate (E.countP (strictAnc P)) P
      ∧ (noAncPair E → noAncPair (filter_hierarchy P E)) := by
  intro P E
  have hchar : filter_hierarchy P E
      = E.filter (fun e => !(strictAnc P e))
          ++ List.replicate (E.countP (strictAnc P)) P := by
    unfold filter_hierarchy
    have h := fh_go_spec P E E 0 (fun e _ => le_refl _)
    simp only [List.replicate_zero, List.append_nil, Nat.zero_add] at h
    rw [h, diff_filter_self]
  refine ⟨hchar, ?_⟩
  intro hE a ha b hb
  rw [hchar] at ha hb
  rcases List.mem_append.mp ha with haF | haP
  · rcases List.mem_append.mp hb with hbF | hbP
    · exact hE a (List.mem_of_mem_filter haF) b (List.mem_of_mem_filter hbF)
    · obtain ⟨hk, hbeq⟩ := List.mem_replicate.mp hbP
      subst b
      have hkpos : 0 < E.countP (strictAnc P) := Nat.pos_of_ne_zero hk
      obtain ⟨e0, he0, he0anc⟩ := List.countP_pos_iff.mp hkpos
      rcases h : strictAnc a P with _ | _
      · rfl
      · exfalso
        have htrans := strictAnc_trans h he0anc
        have := hE a (List.mem_of_mem_filter haF) e0 he0
        rw [this] at htrans
        simp at htrans
  · obtain ⟨_, haeq⟩ := List.mem_replicate.mp haP
    subst a
    rcases List.mem_append.mp hb with hbF | hbP
    · have := List.of_mem_filter hbF
      simpa using this
    · obtain ⟨_, hbeq⟩ := List.mem_replicate.mp hbP
      subst b
      exact strictAnc_irrefl P

/-- Witness for the amended C1 theorem at a concrete input. -/
theorem filter_hierarchy_characterization_witness :
    noAncPair [PyPath.mk true ["a", "b"], PyPath.mk true ["b"]]
    ∧ noAncPair (filter_hierarchy ⟨true, ["a"]⟩
        [PyPath.mk true ["a", "b"], PyPath.mk true ["b"]])
    ∧ filter_hierarchy ⟨true, ["a"]⟩
        [PyPath.mk true ["a", "b"], PyPath.mk true ["b"]]
      = List.filter (fun e => !(strictAnc ⟨true, ["a"]⟩ e))
          [PyPath.mk true ["a", "b"], PyPath.mk true ["b"]]
        ++ List.replicate (List.countP (strictAnc ⟨true, ["a"]⟩)
            [PyPath.mk true ["a", "b"], PyPath.mk true ["b"]]) ⟨true, ["a"]⟩ :=
  ⟨by decide,
   (filter_hierarchy_characterization ⟨true, ["a"]⟩
      [PyPath.mk true ["a", "b"], PyPath.mk true ["b"]]).2 (by decide),
   (filter_hierarchy_characterization ⟨true, ["a"]⟩
      [PyPath.mk true ["a", "b"], PyPath.mk true ["b"]]).1⟩

/-- C3: the server marks the channel encrypted exactly on a matching
reply, but a mismatching reply is not fatal: `handle_client` enters its
receive-and-serve loop regardless, so the connection goes on being served
with the encrypted flag still false (frames then travel in the clear).
The concrete failing input is a reply whose text is right but whose fill
is not reversed. -/
theorem handle_client_serves_after_mismatch :
    (∀ fill resp, (handle_client fill resp).serving = true)
    ∧ handle_client "abcd" [("text", "TestEncryptionMessageResponse"), ("fill", "abcd")]
        = { encrypted := false, serving := true }
    ∧ handle_client "abcd" [("text", "TestEncryptionMessageResponse"), ("fill", "dcba")]
        = { encrypted := true, serving := true } := by
  refine ⟨fun _ _ => rfl, ?_, ?_⟩ <;> decide

theorem hexBytes_length : ∀ bs : List Nat, (hexBytes bs).length = 2 * bs.length := by
  intro bs
  induction bs with
  | nil => rfl
  | cons b r ih => simp [hexBytes, ih]; omega

/-- C4 counterexample: at a concrete 16-byte random input the session key
the client keeps and uses for every frame has length 32, not 16, and it
is not the value that was encrypted under RSA-OAEP. -/
theorem session_key_length_cex :
    (List.replicate 16 0).length = 16
    ∧ ((setup_encryption (List.replicate 16 0) (List.replicate 16 1) 7 [] []).1).length = 32
    ∧ ((setup_encryption (List.replicate 16 0) (List.replicate 16 1) 7 [] []).1).length ≠ 16
    ∧ (setup_encryption (List.replicate 16 0) (List.replicate 16 1) 7 [] []).2.enc_session_key
        ≠ CipherText.rsaOaep 7
            ((setup_encryption (List.replicate 16 0) (List.replicate 16 1) 7 [] []).1) := by
  refine ⟨?_, ?_, ?_, ?_⟩ <;> decide

/-- C4 amended: the client generates 16 random bytes but keeps and uses
their 32-byte lowercase-hex ASCII encoding as the AES-EAX session key for
every subsequent frame; the value sent under RSA-OAEP is a separate fresh
16-byte transport key, under which the 32-byte session key itself is
AES-encrypted inside the handshake envelope. -/
theorem setup_encryption_key_flow :
    ∀ (r16 rsk : List Nat) (pub : Nat) (nonce tag : List Nat),
      r16.length = 16 →
      (setup_encryption r16 rsk pub nonce tag).1.length = 32
      ∧ (setup_encryption r16 rsk pub nonce tag).2.enc_session_key
          = CipherText.rsaOaep pub rsk
      ∧ (setup_encryption r16 rsk pub nonce tag).2.cipher
          = CipherText.aesEax rsk (setup_encryption r16 rsk pub nonce tag).1
      ∧ ∀ m, client_frame (setup_encryption r16 rsk pub nonce tag).1 m
          = CipherText.aesEax (hexBytes r16) m := by
  intro r16 rsk pub nonce tag h
  refine ⟨?_, rfl, rfl, fun m => rfl⟩
  rw [show (setup_encryption r16 rsk pub nonce tag).1 = hexBytes r16 from rfl,
    hexBytes_length, h]

/-- Witness for the amended C4 theorem at a concrete input. -/
theorem setup_encryption_key_flow_witness :
    (List.replicate 16 0).length = 16
    ∧ ((setup_encryption (List.replicate 16 0) [1] 7 [] []).1.length = 32
      ∧ (setup_encryption (List.replicate 16 0) [1] 7 [] []).2.enc_session_key
          = CipherText.rsaOaep 7 [1]
      ∧ (setup_encryption (List.replicate 16 0) [1] 7 [] []).2.cipher
          = CipherText.aesEax [1] (setup_encryption (List.replicate 16 0) [1] 7 [] []).1
      ∧ ∀ m, client_frame (setup_encryption (List.replicate 16 0) [1] 7 [] []).1 m
          = CipherText.aesEax (hexBytes (List.replicate 16 0)) m) :=
  ⟨by decide, setup_encryption_key_flow (List.replicate 16 0) [1] 7 [] [] (by decide)⟩

theorem readUntil_of_no_marker :
    ∀ m : List Nat, occursIn seperator m = false →
      readUntil seperator (m ++ seperator) = some (m ++ seperator) := by
  intro m
  induction m with
  | nil =>
    intro _
    decide
  | cons b m ih =>
    intro h
    have h1 : isPre seperator (b :: m) = false ∧ occursIn seperator m = false := by
      have := h
      simp only [occursIn, Bool.or_eq_false_iff] at this
      exact this
    have hpre : isPre seperator ((b :: m) ++ seperator) = false := by
      rcases hp : isPre seperator ((b :: m) ++ seperator) with _ | _
      · rfl
      · exfalso
        obtain ⟨t, heq⟩ := (isPre_iff seperator ((b :: m) ++ seperator)).mp hp
        have hsix : seperator.length = 6 := rfl
        rcases Nat.lt_or_ge (b :: m).length 6 with hlt | hge
        · have hle : (b :: m).length ≤ seperator.length := by omega
          have hfact : isPre (seperator.drop (b :: m).length) seperator = true := by
            have h3 := congrArg (List.drop (b :: m).length) heq
            rw [List.drop_left] at h3
            rw [List.drop_append_of_le_length hle] at h3
            exact (isPre_iff _ _).mpr ⟨t, h3⟩
          have hk1 : 1 ≤ (b :: m).length := by simp
          set k := (b :: m).length with hkdef
          interval_cases k <;> exact absurd hfact (by decide)
        · have hgesep : seperator.length ≤ (b :: m).length := by omega
          have htake := congrArg (List.take seperator.length) heq
          rw [List.take_left] at htake
          rw [List.take_append_of_le_length hgesep] at htake
          have hbad : isPre seperator (b :: m) = true := by
            refine (isPre_iff _ _).mpr ⟨(b :: m).drop seperator.length, ?_⟩
            have hsplit := List.take_append_drop seperator.length (b :: m)
            rw [htake] at hsplit
            exact hsplit.symm
          rw [h1.1] at hbad
          simp at hbad
    have hpre2 : isPre seperator (b :: (m ++ seperator)) = false := by
      rw [← List.cons_append]
      exact hpre
    show readUntil seperator (b :: (m ++ seperator)) = some (b :: (m ++ seperator))
    rw [readUntil]
    rw [hpre2]
    simp only [Bool.false_eq_true, if_false]
    rw [ih h1.2]
    rfl

theorem dropWhile_append_of_all (p : Nat → Bool) :
    ∀ s l : List Nat, (∀ b ∈ s, p b = true) →
      List.dropWhile p (s ++ l) = List.dropWhile p l := by
  intro s
  induction s with
  | nil => intro l _; rfl
  | cons b s ih =>
    intro l hall
    rw [List.cons_append, List.dropWhile_cons]
    rw [hall b (List.mem_cons_self b s)]
    simp only [if_true]
    exact ih l (fun x hx => hall x (List.mem_cons_of_mem b hx))

theorem rstripSet_append_sep (m : List Nat) :
    rstripSet seperator (m ++ seperator) = rstripSet seperator m := by
  unfold rstripSet
  rw [List.reverse_append]
  rw [dropWhile_append_of_all _ seperator.reverse m.reverse (by decide)]

theorem rstripSet_of_last_not (m : List Nat) (b : Nat)
    (hlast : m.getLast? = some b) (hb : seperator.contains b = false) :
    rstripSet seperator m = m := by
  rcases hrev : m.reverse with _ | ⟨c, rest⟩
  · have : m = [] := by simpa using congrArg List.reverse hrev
    simp [this, rstripSet]
  · have hm : m = rest.reverse ++ [c] := by
      have := congrArg List.reverse hrev
      simpa using this
    have hcb : b = c := by
      rw [hm] at hlast
      rw [List.getLast?_concat] at hlast
      exact (Option.some_inj.mp hlast).symm
    subst hcb
    unfold rstripSet
    rw [hrev]
    simp only [List.dropWhile_cons, hb]
    simp only [Bool.false_eq_true, if_false]
    rw [← hrev, List.reverse_reverse]

/-- C6 counterexample: the payload "a!" (no marker inside, last byte one
of the marker characters) is framed and received back as "a": rstrip
treats the 6-byte marker as a character set and also strips the trailing
exclamation mark. -/
theorem frame_roundtrip_cex :
    occursIn seperator [97, 33] = false
    ∧ receive_on_socket (send_message [97, 33]) = some [97]
    ∧ some [97] ≠ some ([97, 33] : List Nat) := by
  refine ⟨?_, ?_, ?_⟩ <;> decide

/-- C6 amended: receiving the frame produced by sending a marker-free
payload m yields m with its maximal trailing run of marker-set bytes
also stripped; receiving is a left inverse of sending exactly for
payloads that are empty or whose last byte is none of the four marker
characters. -/
theorem frame_roundtrip_amended :
    ∀ m : List Nat, occursIn seperator m = false →
      receive_on_socket (send_message m) = some (rstripSet seperator m)
      ∧ (∀ b, m.getLast? = some b → seperator.contains b = false →
          receive_on_socket (send_message m) = some m)
      ∧ (m = [] → receive_on_socket (send_message m) = some m) := by
  intro m h
  have hmain : receive_on_socket (send_message m) = some (rstripSet seperator m) := by
    unfold receive_on_socket send_message
    rw [readUntil_of_no_marker m h]
    show some (rstripSet seperator (m ++ seperator)) = some (rstripSet seperator m)
    rw [rstripSet_append_sep]
  refine ⟨hmain, ?_, ?_⟩
  · intro b hlast hb
    rw [hmain, rstripSet_of_last_not m b hlast hb]
  · intro hnil
    subst hnil
    rw [hmain]
    rfl

/-- Witness for the amended C6 theorem at a concrete input. -/
theorem frame_roundtrip_amended_witness :
    occursIn seperator [104, 105] = false
    ∧ receive_on_socket (send_message [104, 105]) = some (rstripSet seperator [104, 105])
    ∧ receive_on_socket (send_message [104, 105]) = some [104, 105] :=
  ⟨by decide,
   (frame_roundtrip_amended [104, 105] (by decide)).1,
   (frame_roundtrip_amended [104, 105] (by decide)).2.1 105 (by decide) (by decide)⟩

/-- C2: the memo assignment is guarded by `elif SyncStrategy.ALLOW_ADDS:`
— the condition is the enum member itself, which is always truthy — so
the memo `validated_remote_crc := remote_crc` is recorded under every
strategy whenever the STRICT removal branch is not taken: a STRICT
directive whose extras list is empty, and an ENSURE_CREATED directive,
both get the memo, contradicting the claim that only ALLOW_ADDS does;
only the STRICT-with-extras path (which removes the extras) skips it. -/
theorem resolve_directory_state_memo_bug :
    resolve_directory_state { sync_strategy := SyncStrategy.STRICT, remote_crc := 5 } [] []
      = some ({ sync_strategy := SyncStrategy.STRICT, remote_crc := 5,
                validated_remote_crc := 5, in_sync := true,
                remote_object_exists := true }, [], [])
    ∧ resolve_directory_state
        { sync_strategy := SyncStrategy.ENSURE_CREATED, remote_crc := 7 } [] []
      = some ({ sync_strategy := SyncStrategy.ENSURE_CREATED, remote_crc := 7,
                validated_remote_crc := 7, in_sync := true,
                remote_object_exists := true }, [], [])
    ∧ resolve_directory_state { sync_strategy := SyncStrategy.STRICT, remote_crc := 5 }
        [] [(⟨true, ["x"]⟩, 1)]
      = some ({ sync_strategy := SyncStrategy.STRICT, remote_crc := 5,
                validated_remote_crc := 0, in_sync := true,
                remote_object_exists := true }, [],
              [KeeperCall.remove_objects [⟨true, ["x"]⟩]]) := by
  refine ⟨?_, ?_, ?_⟩ <;> decide

/-- C5 counterexample: a manager satisfying the invariant (out of sync,
local CRC 1, remote CRC 2, no memo) is left violating it by
`resolve_file_state`, which sets in_sync without touching any CRC. -/
theorem resolve_file_state_inv_cex :
    managerInv { local_crc := 1, remote_crc := 2 }
    ∧ (resolve_file_state { local_crc := 1, remote_crc := 2 }).in_sync = true
    ∧ ¬ managerInv (resolve_file_state { local_crc := 1, remote_crc := 2 }) := by
  refine ⟨?_, ?_, ?_⟩ <;> decide

/-- C5 amended: `compare_objects` preserves the invariant;
`resolve_directory_state` leaves the invariant satisfied except on the
STRICT path that removes extras (where in_sync is set with all CRC fields
unchanged); and `resolve_file_state` sets in_sync while leaving all CRC
fields unchanged, violating the invariant whenever the CRCs differ and
the memo does not apply on entry. -/
theorem sync_pipeline_invariant_amended :
    ∀ (s st : FsEntryStateManager) (lh rh : List (PyPath × Nat))
      (fr : List PyPath) (calls : List KeeperCall),
      (managerInv s → managerInv (compare_objects s))
      ∧ (managerInv s → resolve_directory_state s lh rh = some (st, fr, calls) →
          (managerInv st
            ∨ (s.sync_strategy = SyncStrategy.STRICT ∧ st.in_sync = true
                ∧ st.local_crc ≠ st.remote_crc
                ∧ st.validated_remote_crc ≠ st.remote_crc)))
      ∧ (s.local_crc ≠ s.remote_crc → s.validated_remote_crc ≠ s.remote_crc →
          (resolve_file_state s).in_sync = true
            ∧ ¬ managerInv (resolve_file_state s)) := by
  intro s st lh rh fr calls
  refine ⟨?_, ?_, ?_⟩
  · intro hinv
    unfold compare_objects
    by_cases h1 : s.local_object_exists = false
    · rw [if_pos h1]; exact hinv
    · rw [if_neg h1]
      by_cases h2 : s.remote_crc = 0 ∧ s.local_crc ≠ 0
      · rw [if_pos h2]
        unfold managerInv at hinv ⊢
        simpa using hinv
      · rw [if_neg h2]
        by_cases h3 : s.remote_crc ≠ s.local_crc
        · rw [if_pos h3]
          unfold managerInv
          simp
        · rw [if_neg h3]
          push_neg at h3
          unfold managerInv
          simp [h3.symm]
  · intro hinv hres
    unfold resolve_directory_state at hres
    by_cases h0 : s.remote_crc = 0
    · rw [if_pos h0] at hres
      simp only [Option.some_inj, Prod.mk.injEq] at hres
      obtain ⟨hst, _, _⟩ := hres
      subst hst
      exact Or.inl hinv
    · rw [if_neg h0] at hres
      cases hdel : resolve_object_deltas s.root lh rh with
      | none =>
        rw [hdel] at hres
        simp at hres
      | some pair =>
        obtain ⟨frags, toRemove⟩ := pair
        rw [hdel] at hres
        dsimp only at hres
        by_cases hsr : s.sync_strategy = SyncStrategy.STRICT ∧ toRemove ≠ []
        · rw [if_pos hsr] at hres
          simp only [Option.some_inj, Prod.mk.injEq] at hres
          obtain ⟨hst, _, _⟩ := hres
          subst hst
          by_cases hl : s.local_crc = s.remote_crc
          · exact Or.inl (Or.inr (Or.inl hl))
          · by_cases hv : s.validated_remote_crc = s.remote_crc
            · exact Or.inl (Or.inr (Or.inr hv))
            · exact Or.inr ⟨hsr.1, rfl, hl, hv⟩
        · rw [if_neg hsr] at hres
          simp only [Option.some_inj, Prod.mk.injEq] at hres
          obtain ⟨hst, _, _⟩ := hres
          subst hst
          exact Or.inl (Or.inr (Or.inr rfl))
  · intro h1 h2
    refine ⟨rfl, ?_⟩
    unfold managerInv resolve_file_state
    simp [h1, h2]

/-- Witness for the amended C5 theorem at a concrete manager. -/
theorem sync_pipeline_invariant_amended_witness :
    managerInv (compare_objects sampleManager)
    ∧ (managerInv sampleManagerAfter
        ∨ (sampleManager.sync_strategy = SyncStrategy.STRICT
            ∧ sampleManagerAfter.in_sync = true
            ∧ sampleManagerAfter.local_crc ≠ sampleManagerAfter.remote_crc
            ∧ sampleManagerAfter.validated_remote_crc ≠ sampleManagerAfter.remote_crc))
    ∧ ((resolve_file_state sampleManager).in_sync = true
        ∧ ¬ managerInv (resolve_file_state sampleManager)) := by
  have h := sync_pipeline_invariant_amended sampleManager sampleManagerAfter [] [] [] []
  exact ⟨h.1 (by decide), h.2.1 (by decide) (by decide), h.2.2 (by decide) (by decide)⟩

/-- C7: when installing the required packages of one plugin fails, the
source executes `return` instead of continuing the loop, so every plugin
after the failing one is not registered — although plugin b registers
fine when loaded on its own, loading it after a plugin with a failing
install registers nothing. -/
theorem load_plugins_abort_bug :
    load_plugins
      [{ plugin_name := "a", is_extensions := true,
         required_packages := ["pkg"], install_ok := false },
       { plugin_name := "b", is_extensions := true,
         required_packages := [], install_ok := true }] = []
    ∧ load_plugins
        [{ plugin_name := "b", is_extensions := true,
           required_packages := [], install_ok := true }] = ["b"]
    ∧ "b" ∉ load_plugins
        [{ plugin_name := "a", is_extensions := true,
           required_packages := ["pkg"], install_ok := false },
         { plugin_name := "b", is_extensions := true,
           required_packages := [], install_ok := true }] := by
  refine ⟨?_, ?_, ?_⟩ <;> decide

/-- C8 counterexample: a transfer of exactly 52428800 bytes (one file) is
not inline — the fragment goes to the bulk-stream call, because the
source compares `size < MAX_INBAND_FILESIZE` strictly. -/
theorem sync_remote_object_threshold_cex :
    sync_remote_object ⟨true, ["app"]⟩ ⟨true, ["x", "f.txt"]⟩ 52428800
        [{ path := ⟨true, ["x", "f.txt"]⟩, kind := FsKind.file, data := [] }]
      = some [AgentCall.stream_files
          [(⟨true, ["x", "f.txt"]⟩, ⟨true, ["app", "f.txt"]⟩)]]
    ∧ 52428800 ≤ MAX_INBAND_FILESIZE
    ∧ inlineOnly [AgentCall.stream_files
          [(⟨true, ["x", "f.txt"]⟩, ⟨true, ["app", "f.txt"]⟩)]] = false := by
  refine ⟨?_, ?_, ?_⟩ <;> decide

theorem syncGo_spec (rd base : PyPath) (ib : Bool) :
    ∀ (frags : List Frag) (calls : List AgentCall) (ts : List (PyPath × PyPath)),
      syncGo rd base ib frags = some (calls, ts) →
      inlineOnly calls = true
      ∧ (ib = true → ts = [])
      ∧ (ib = false → ∀ p d, AgentCall.write_object p false d ∉ calls)
      ∧ (ib = false → (ts = [] ↔ ∀ f ∈ frags, f.kind ≠ FsKind.file))
      ∧ (ib = true → ∀ f ∈ frags, f.kind = FsKind.file →
          ∃ abs, absRemotePath rd base f.path = some abs
            ∧ AgentCall.write_object abs false f.data ∈ calls)
      ∧ (∀ f ∈ frags, f.kind = FsKind.dir →
          ∃ abs, absRemotePath rd base f.path = some abs
            ∧ AgentCall.write_object abs true [] ∈ calls) := by
  intro frags
  induction frags with
  | nil =>
    intro calls ts hres
    simp only [syncGo, Option.some_inj, Prod.mk.injEq] at hres
    obtain ⟨hc, ht⟩ := hres
    subst hc; subst ht
    refine ⟨rfl, fun _ => rfl, fun _ p d h => by simp at h,
      fun _ => by simp, fun _ f hf => by simp at hf, fun f hf => by simp at hf⟩
  | cons f rest ih =>
    intro calls ts hres
    simp only [syncGo, Option.bind_eq_bind, Option.bind_eq_some] at hres
    obtain ⟨abs, habs, hres⟩ := hres
    obtain ⟨⟨calls0, ts0⟩, hrec, hres⟩ := hres
    obtain ⟨hin, hib, hnw, hts, hfw, hdw⟩ := ih calls0 ts0 hrec
    cases hk : f.kind with
    | dir =>
      rw [hk] at hres
      simp only [Option.some_inj, Prod.mk.injEq] at hres
      obtain ⟨hc, ht⟩ := hres
      subst hc; subst ht
      refine ⟨by simpa [inlineOnly] using hin, hib, ?_, ?_, ?_, ?_⟩
      · intro hibf p d hmem
        rcases List.mem_cons.mp hmem with heq | hmem2
        · simp at heq
        · exact hnw hibf p d hmem2
      · intro hibf
        rw [hts hibf]
        constructor
        · intro hall g hg
          rcases List.mem_cons.mp hg with rfl | hg2
          · rw [hk]; simp
          · exact hall g hg2
        · intro hall g hg
          exact hall g (List.mem_cons_of_mem f hg)
      · intro hibt g hg hgf
        rcases List.mem_cons.mp hg with rfl | hg2
        · rw [hk] at hgf; simp at hgf
        · obtain ⟨a2, ha2, hm2⟩ := hfw hibt g hg2 hgf
          exact ⟨a2, ha2, List.mem_cons_of_mem _ hm2⟩
      · intro g hg hgd
        rcases List.mem_cons.mp hg with rfl | hg2
        · exact ⟨abs, habs, List.mem_cons_self _ _⟩
        · obtain ⟨a2, ha2, hm2⟩ := hdw g hg2 hgd
          exact ⟨a2, ha2, List.mem_cons_of_mem _ hm2⟩
    | file =>
      rw [hk] at hres
      cases ib with
      | true =>
        simp only [if_true, Option.some_inj, Prod.mk.injEq] at hres
        obtain ⟨hc, ht⟩ := hres
        subst hc; subst ht
        refine ⟨by simpa [inlineOnly] using hin, hib, ?_, ?_, ?_, ?_⟩
        · intro hibf; simp at hibf
        · intro hibf; simp at hibf
        · intro _ g hg hgf
          rcases List.mem_cons.mp hg with rfl | hg2
          · exact ⟨abs, habs, List.mem_cons_self _ _⟩
          · obtain ⟨a2, ha2, hm2⟩ := hfw rfl g hg2 hgf
            exact ⟨a2, ha2, List.mem_cons_of_mem _ hm2⟩
        · intro g hg hgd
          rcases List.mem_cons.mp hg with rfl | hg2
          · rw [hk] at hgd; simp at hgd
          · obtain ⟨a2, ha2, hm2⟩ := hdw g hg2 hgd
            exact ⟨a2, ha2, List.mem_cons_of_mem _ hm2⟩
      | false =>
        simp only [Bool.false_eq_true, if_false, Option.some_inj, Prod.mk.injEq] at hres
        obtain ⟨hc, ht⟩ := hres
        subst hc; subst ht
        refine ⟨hin, ?_, ?_, ?_, ?_, ?_⟩
        · intro hibt; simp at hibt
        · intro _ p d hmem; exact hnw rfl p d hmem
        · intro _
          constructor
          · intro hcontra; simp at hcontra
          · intro hall
            exfalso
            exact hall f (List.mem_cons_self _ _) hk
        · intro hibt; simp at hibt
        · intro g hg hgd
          rcases List.mem_cons.mp hg with rfl | hg2
          · rw [hk] at hgd; simp at hgd
          · exact hdw g hg2 hgd
    | other =>
      rw [hk] at hres
      simp only [Option.some_inj, Prod.mk.injEq] at hres
      obtain ⟨hc, ht⟩ := hres
      subst hc; subst ht
      refine ⟨hin, hib, hnw, ?_, ?_, ?_⟩
      · intro hibf
        rw [hts hibf]
        constructor
        · intro hall g hg
          rcases List.mem_cons.mp hg with rfl | hg2
          · rw [hk]; simp
          · exact hall g hg2
        · intro hall g hg
          exact hall g (List.mem_cons_of_mem f hg)
      · intro hibt g hg hgf
        rcases List.mem_cons.mp hg with rfl | hg2
        · rw [hk] at hgf; simp at hgf
        · exact hfw hibt g hg2 hgf
      · intro g hg hgd
        rcases List.mem_cons.mp hg with rfl | hg2
        · rw [hk] at hgd; simp at hgd
        · exact hdw g hg2 hgd

theorem inlineOnly_append_stream (l : List AgentCall) (ts : List (PyPath × PyPath)) :
    inlineOnly (l ++ [AgentCall.stream_files ts]) = false := by
  induction l with
  | nil => rfl
  | cons c l ih =>
    unfold inlineOnly at ih ⊢
    rw [List.cons_append, List.all_cons, ih]
    simp

/-- C8 amended: the transfer is inline exactly when the total size is
strictly below 52428800 bytes (each file fragment getting its inline
write_object and no bulk-stream call being issued), and it goes through
the bulk-stream path exactly when the size is 52428800 or more (no inline
file write is issued and, when any file fragment exists, a stream_files
call is); directories always get write_object(…, True, b""). A transfer
of exactly 52428800 bytes is therefore streamed, not inline. -/
theorem sync_remote_object_threshold_amended :
    ∀ (rd base : PyPath) (size : Nat) (frags : List Frag) (calls : List AgentCall),
      sync_remote_object rd base size frags = some calls →
      (size < 52428800 →
        inlineOnly calls = true
        ∧ ∀ f ∈ frags, f.kind = FsKind.file →
            ∃ abs, absRemotePath rd base f.path = some abs
              ∧ AgentCall.write_object abs false f.data ∈ calls)
      ∧ (52428800 ≤ size →
        (∀ p d, AgentCall.write_object p false d ∉ calls)
        ∧ ((∃ f ∈ frags, f.kind = FsKind.file) → inlineOnly calls = false))
      ∧ (∀ f ∈ frags, f.kind = FsKind.dir →
          ∃ abs, absRemotePath rd base f.path = some abs
            ∧ AgentCall.write_object abs true [] ∈ calls) := by
  intro rd base size frags calls hres
  have hmax : MAX_INBAND_FILESIZE = 52428800 := by norm_num [MAX_INBAND_FILESIZE]
  unfold sync_remote_object at hres
  simp only [Option.bind_eq_bind, Option.bind_eq_some] at hres
  obtain ⟨⟨calls0, ts⟩, hgo, hres⟩ := hres
  obtain ⟨hin, hib, hnw, hts, hfw, hdw⟩ := syncGo_spec rd base _ frags calls0 ts hgo
  refine ⟨?_, ?_, ?_⟩
  · intro hlt
    have hibt : decide (size < MAX_INBAND_FILESIZE) = true := by
      rw [hmax]
      exact decide_eq_true hlt
    rw [hibt] at hgo hib hnw hts hfw
    have htsnil : ts = [] := hib rfl
    subst htsnil
    simp only [List.isEmpty_nil, if_true, Option.some_inj] at hres
    subst hres
    refine ⟨hin, fun f hf hk => hfw rfl f hf hk⟩
  · intro hge
    have hibf : decide (size < MAX_INBAND_FILESIZE) = false := by
      rw [hmax]
      simp only [decide_eq_false_iff_not]
      omega
    rw [hibf] at hgo hib hnw hts hfw
    constructor
    · intro p d hmem
      rcases hts0 : ts.isEmpty with _ | _
      · rw [hts0] at hres
        simp only [Bool.false_eq_true, if_false, Option.some_inj] at hres
        subst hres
        rcases List.mem_append.mp hmem with hm | hm
        · exact hnw rfl p d hm
        · simp at hm
      · rw [hts0] at hres
        simp only [if_true, Option.some_inj] at hres
        subst hres
        exact hnw rfl p d hmem
    · rintro ⟨f, hf, hk⟩
      have htsne : ts ≠ [] := by
        intro hnil
        have := (hts rfl).mp hnil f hf
        exact this hk
      have hts0 : ts.isEmpty = false := by
        cases ts with
        | nil => exact absurd rfl htsne
        | cons a l => rfl
      rw [hts0] at hres
      simp only [Bool.false_eq_true, if_false, Option.some_inj] at hres
      subst hres
      exact inlineOnly_append_stream calls0 ts
  · intro f hf hk
    obtain ⟨a2, ha2, hm2⟩ := hdw f hf hk
    rcases hts0 : ts.isEmpty with _ | _
    · rw [hts0] at hres
      simp only [Bool.false_eq_true, if_false, Option.some_inj] at hres
      subst hres
      exact ⟨a2, ha2, List.mem_append_left _ hm2⟩
    · rw [hts0] at hres
      simp only [if_true, Option.some_inj] at hres
      subst hres
      exact ⟨a2, ha2, hm2⟩

/-- Witness for the amended C8 theorem at a concrete input: a 5-byte
transfer of one file and one directory goes inline. -/
theorem sync_remote_object_threshold_amended_witness :
    sync_remote_object ⟨true, ["app"]⟩ ⟨true, ["x"]⟩ 5
        [{ path := ⟨true, ["x", "a.txt"]⟩, kind := FsKind.file, data := [7] },
         { path := ⟨true, ["x", "d"]⟩, kind := FsKind.dir, data := [] }]
      = some [AgentCall.write_object ⟨true, ["app", "a.txt"]⟩ false [7],
              AgentCall.write_object ⟨true, ["app", "d"]⟩ true []]
    ∧ inlineOnly [AgentCall.write_object ⟨true, ["app", "a.txt"]⟩ false [7],
        AgentCall.write_object ⟨true, ["app", "d"]⟩ true []] = true
    ∧ ∃ abs, absRemotePath ⟨true, ["app"]⟩ ⟨true, ["x"]⟩ ⟨true, ["x", "d"]⟩ = some abs
        ∧ AgentCall.write_object abs true []
            ∈ [AgentCall.write_object ⟨true, ["app", "a.txt"]⟩ false [7],
               AgentCall.write_object ⟨true, ["app", "d"]⟩ true []] := by
  have h := sync_remote_object_threshold_amended ⟨true, ["app"]⟩ ⟨true, ["x"]⟩ 5
    [{ path := ⟨true, ["x", "a.txt"]⟩, kind := FsKind.file, data := [7] },
     { path := ⟨true, ["x", "d"]⟩, kind := FsKind.dir, data := [] }]
    [AgentCall.write_object ⟨true, ["app", "a.txt"]⟩ false [7],
     AgentCall.write_object ⟨true, ["app", "d"]⟩ true []] (by decide)
  refine ⟨by decide, (h.1 (by decide)).1, ?_⟩
  exact h.2.2 { path := ⟨true, ["x", "d"]⟩, kind := FsKind.dir, data := [] }
    (by decide) rfl

theorem findChild_setChild_self (c : String) (v : FsNode) :
    ∀ ch : List (String × FsNode), (findChild c ch).isSome →
      findChild c (setChild c v ch) = some v := by
  intro ch
  induction ch with
  | nil => intro hc; simp [findChild] at hc
  | cons e rest ih =>
    intro hc
    obtain ⟨n, node⟩ := e
    by_cases hn : (n == c) = true
    · simp [setChild, findChild, hn]
    · have hn2 : (n == c) = false := by simpa using hn
      simp only [findChild, hn2, Bool.false_eq_true, if_false] at hc
      simp only [setChild, findChild, hn2, Bool.false_eq_true, if_false]
      exact ih hc

theorem findChild_append_self (c : String) (v : FsNode) :
    ∀ ch : List (String × FsNode), findChild c ch = none →
      findChild c (ch ++ [(c, v)]) = some v := by
  intro ch
  induction ch with
  | nil => intro _; simp [findChild]
  | cons e rest ih =>
    intro hc
    obtain ⟨n, node⟩ := e
    simp only [findChild] at hc
    by_cases hn : n == c
    · rw [if_pos hn] at hc; simp at hc
    · rw [if_neg hn] at hc
      simp only [List.cons_append, findChild]
      rw [if_neg hn]
      exact ih hc

theorem lookupNode_empty_dir (l : List String) (hl : l ≠ []) :
    lookupNode (FsNode.dir []) l = none := by
  cases l with
  | nil => exact absurd rfl hl
  | cons a r => simp [lookupNode, findChild]

theorem mkdirP_lookup :
    ∀ (q : List String) (root r : FsNode), mkdirP root q = some r →
      ∀ tail : List String, tail ≠ [] →
        lookupNode r (q ++ tail) = lookupNode root (q ++ tail) := by
  intro q
  induction q with
  | nil =>
    intro root r hmk tail _
    cases root with
    | file d => simp [mkdirP] at hmk
    | dir ch =>
      simp only [mkdirP, Option.some_inj] at hmk
      subst hmk
      rfl
  | cons c q ih =>
    intro root r hmk tail htail
    cases root with
    | file d => simp [mkdirP] at hmk
    | dir ch =>
      cases hfc : findChild c ch with
      | some sub =>
        simp only [mkdirP, hfc] at hmk
        cases hsub : mkdirP sub q with
        | none => rw [hsub] at hmk; simp at hmk
        | some sub2 =>
          rw [hsub] at hmk
          simp only [Option.map_some', Option.some_inj] at hmk
          subst hmk
          show lookupNode (FsNode.dir (setChild c sub2 ch)) (c :: (q ++ tail))
            = lookupNode (FsNode.dir ch) (c :: (q ++ tail))
          have hset : findChild c (setChild c sub2 ch) = some sub2 :=
            findChild_setChild_self c sub2 ch (by rw [hfc]; rfl)
          simp only [lookupNode, hset, hfc]
          exact ih sub sub2 hsub tail htail
      | none =>
        simp only [mkdirP, hfc] at hmk
        cases hsub : mkdirP (FsNode.dir []) q with
        | none => rw [hsub] at hmk; simp at hmk
        | some sub2 =>
          rw [hsub] at hmk
          simp only [Option.map_some', Option.some_inj] at hmk
          subst hmk
          show lookupNode (FsNode.dir (ch ++ [(c, sub2)])) (c :: (q ++ tail))
            = lookupNode (FsNode.dir ch) (c :: (q ++ tail))
          have happ : findChild c (ch ++ [(c, sub2)]) = some sub2 :=
            findChild_append_self c sub2 ch hfc
          simp only [lookupNode, happ, hfc]
          rw [ih (FsNode.dir []) sub2 hsub tail htail]
          rw [lookupNode_empty_dir (q ++ tail) (by simp [htail])]

/-- C9: a write_object call with is_dir false and no uncompressed flag
always takes the tarball branch; when the data is not an archive
`tarfile` can open, the exception is printed and swallowed, the call
returns normally with nothing written at the path (the node there is
unchanged), and the RPC-visible result is the same `None` a successful
extraction returns, so the caller cannot tell the two apart.  The parent
directories are assumed creatable: when `p.parent.mkdir` raises, the
call dies before the data is ever interpreted. -/
theorem write_object_invalid_tar :
    ∀ (root : FsNode) (wd : List String) (obj : WriteObj) (r1 : FsNode),
      obj.is_dir = false → obj.uncompressed = false →
      (resolveAgentPath wd obj.path).comps ≠ [] →
      mkdirP root (resolveAgentPath wd obj.path).comps.dropLast = some r1 →
      write_object root wd obj none = some (r1, ())
      ∧ lookupNode r1 (resolveAgentPath wd obj.path).comps
          = lookupNode root (resolveAgentPath wd obj.path).comps
      ∧ (∀ entries, (write_object root wd obj (some entries)).map Prod.snd = some ()) := by
  intro root wd obj r1 hdir hunc hne hmk
  have hcall : ∀ tarRes, write_object root wd obj tarRes
      = writeTail r1 (resolveAgentPath wd obj.path) obj tarRes := by
    intro tarRes
    unfold write_object
    rw [hmk]
    dsimp only
    rw [hdir]
    simp
  refine ⟨?_, ?_, ?_⟩
  · rw [hcall none]
    unfold writeTail
    rw [hunc]
    simp
  · have hsplit := List.dropLast_append_getLast hne
    calc lookupNode r1 (resolveAgentPath wd obj.path).comps
        = lookupNode r1 ((resolveAgentPath wd obj.path).comps.dropLast
            ++ [(resolveAgentPath wd obj.path).comps.getLast hne]) := by rw [hsplit]
      _ = lookupNode root ((resolveAgentPath wd obj.path).comps.dropLast
            ++ [(resolveAgentPath wd obj.path).comps.getLast hne]) :=
            mkdirP_lookup _ root r1 hmk _ (by simp)
      _ = lookupNode root (resolveAgentPath wd obj.path).comps := by rw [hsplit]
  · intro entries
    rw [hcall (some entries)]
    unfold writeTail
    rw [hunc]
    simp

/-- Witness for the C9 theorem at a concrete input. -/
theorem write_object_invalid_tar_witness :
    write_object sampleFs ["app"] sampleWriteObj none = some (sampleFsMk, ())
    ∧ lookupNode sampleFsMk (resolveAgentPath ["app"] sampleWriteObj.path).comps
        = lookupNode sampleFs (resolveAgentPath ["app"] sampleWriteObj.path).comps
    ∧ (∀ entries, (write_object sampleFs ["app"] sampleWriteObj (some entries)).map
         Prod.snd = some ()) :=
  write_object_invalid_tar sampleFs ["app"] sampleWriteObj sampleFsMk rfl rfl
    (by decide) rfl

theorem gather_keys :
    ∀ fuel : Nat,
      (∀ (comps : List String) (ch : List (String × FsNode)) (kv : PyPath × Nat),
        kv ∈ gatherDirF fuel comps ch →
          kv.1.abs = true ∧ ∃ suf, kv.1.comps = comps ++ suf)
      ∧ (∀ (comps : List String) (l : List (String × FsNode)) (kv : PyPath × Nat),
        kv ∈ gatherKidsF fuel comps l →
          kv.1.abs = true ∧ ∃ suf, kv.1.comps = comps ++ suf) := by
  intro fuel
  induction fuel with
  | zero =>
    constructor
    · intro comps ch kv hkv
      simp [gatherDirF] at hkv
    · intro comps l
      induction l with
      | nil => intro kv hkv; simp [gatherKidsF] at hkv
      | cons e r ihr =>
        obtain ⟨n, node⟩ := e
        intro kv hkv
        cases node with
        | file d =>
          rw [gatherKidsF] at hkv
          rcases List.mem_cons.mp hkv with heq | hmem
          · subst heq
            exact ⟨rfl, [n], rfl⟩
          · exact ihr kv hmem
        | dir ch2 =>
          rw [gatherKidsF] at hkv
          rcases List.mem_append.mp hkv with hmem | hmem
          · simp [gatherDirF] at hmem
          · exact ihr kv hmem
  | succ k ihk =>
    have hdir : ∀ (comps : List String) (ch : List (String × FsNode)) (kv : PyPath × Nat),
        kv ∈ gatherDirF (k + 1) comps ch →
          kv.1.abs = true ∧ ∃ suf, kv.1.comps = comps ++ suf := by
      intro comps ch kv hkv
      rw [gatherDirF] at hkv
      rcases List.mem_cons.mp hkv with heq | hmem
      · subst heq
        exact ⟨rfl, [], by simp⟩
      · exact ihk.2 comps (sortChildren comps ch) kv hmem
    refine ⟨hdir, ?_⟩
    intro comps l
    induction l with
    | nil => intro kv hkv; simp [gatherKidsF] at hkv
    | cons e r ihr =>
      obtain ⟨n, node⟩ := e
      intro kv hkv
      cases node with
      | file d =>
        rw [gatherKidsF] at hkv
        rcases List.mem_cons.mp hkv with heq | hmem
        · subst heq
          exact ⟨rfl, [n], rfl⟩
        · exact ihr kv hmem
      | dir ch2 =>
        rw [gatherKidsF] at hkv
        rcases List.mem_append.mp hkv with hmem | hmem
        · obtain ⟨habs, suf, hsuf⟩ := hdir (comps ++ [n]) ch2 kv hmem
          exact ⟨habs, [n] ++ suf, by rw [hsuf, List.append_assoc]⟩
        · exact ihr kv hmem

theorem relKeys_spec :
    ∀ (wd : List String) (h : List (PyPath × Nat)),
      (∀ kv ∈ h, kv.1.abs = true ∧ isPre wd kv.1.comps = true) →
      relKeys wd h
        = some (h.map (fun kv => (⟨false, kv.1.comps.drop wd.length⟩, kv.2))) := by
  intro wd h
  induction h with
  | nil => intro _; rfl
  | cons kv rest ih =>
    intro hall
    have hkv := hall kv (List.mem_cons_self kv rest)
    have hrel : pyRelTo kv.1 ⟨true, wd⟩ = some ⟨false, kv.1.comps.drop wd.length⟩ := by
      unfold pyRelTo
      rw [if_pos (by simp [hkv.1, hkv.2])]
    rw [relKeys, hrel, ih (fun x hx => hall x (List.mem_cons_of_mem kv hx))]
    rfl

/-- C10: a path that does not exist on the agent gives the empty mapping
from get_directory_hashes but a CRC-0 entry from get_all_object_hashes;
a relative directory input has every key of the result rewritten
relative to the working directory (the rewrite never raises since every
gathered key extends the resolved root), while an absolute input keeps
absolute keys. -/
theorem agent_hashes_missing_and_keys :
    ∀ (root : FsNode) (wd : List String) (d q : PyPath)
      (h : List (PyPath × Nat)) (ch : List (String × FsNode)),
      (lookupNode root (resolveAgentPath wd d).comps = none →
        get_directory_hashes root wd d = some [])
      ∧ (lookupNode root (resolveAgentPath wd q).comps = none →
        get_all_object_hashes root wd [q] = [{ name := q, crc32 := 0 }])
      ∧ (d.abs = false → lookupNode root (wd ++ d.comps) = some (FsNode.dir ch) →
        get_directory_hashes root wd d
          = some ((gatherDirF (FsNode.count (FsNode.dir ch)) (wd ++ d.comps) ch).map
              (fun kv => (⟨false, kv.1.comps.drop wd.length⟩, kv.2))))
      ∧ (d.abs = true → get_directory_hashes root wd d = some h →
        ∀ kv ∈ h, kv.1.abs = true) := by
  intro root wd d q h ch
  refine ⟨?_, ?_, ?_, ?_⟩
  · intro hl
    unfold get_directory_hashes
    rw [hl]
  · intro hl
    unfold get_all_object_hashes get_object_crc
    simp only [List.map]
    rw [hl]
  · intro habs hl
    have hres : resolveAgentPath wd d = ⟨true, wd ++ d.comps⟩ := by
      unfold resolveAgentPath
      rw [habs]
      simp
    unfold get_directory_hashes
    rw [hres]
    dsimp only
    rw [hl]
    dsimp only
    rw [if_neg (by simp [habs])]
    apply relKeys_spec
    intro kv hkv
    obtain ⟨hab, suf, hsuf⟩ := (gather_keys (FsNode.count (FsNode.dir ch))).1
      (wd ++ d.comps) ch kv hkv
    refine ⟨hab, ?_⟩
    rw [hsuf, List.append_assoc]
    exact isPre_append wd (d.comps ++ suf)
  · intro habs hres
    unfold get_directory_hashes at hres
    cases hl : lookupNode root (resolveAgentPath wd d).comps with
    | none =>
      rw [hl] at hres
      simp at hres
      subst hres
      intro kv hkv
      simp at hkv
    | some node =>
      cases node with
      | file fd =>
        rw [hl] at hres
        simp at hres
      | dir ch2 =>
        rw [hl] at hres
        simp only [habs, if_true, Option.some_inj] at hres
        subst hres
        intro kv hkv
        exact ((gather_keys (FsNode.count (FsNode.dir ch2))).1 _ ch2 kv hkv).1

/-- Witness for the C10 theorem at concrete inputs on the sample
filesystem. -/
theorem agent_hashes_missing_and_keys_witness :
    get_directory_hashes sampleFs ["app"] ⟨false, ["nope"]⟩ = some []
    ∧ get_all_object_hashes sampleFs ["app"] [⟨false, ["nope"]⟩]
        = [{ name := ⟨false, ["nope"]⟩, crc32 := 0 }]
    ∧ get_directory_hashes sampleFs ["app"] ⟨false, ["docs"]⟩
        = some ((gatherDirF (FsNode.count (FsNode.dir sampleDocsChildren))
              (["app"] ++ ["docs"]) sampleDocsChildren).map
            (fun kv => (⟨false, kv.1.comps.drop (["app"] : List String).length⟩, kv.2)))
    ∧ (∀ kv ∈ gatherDirF (FsNode.count (FsNode.dir sampleDocsChildren))
          ["app", "docs"] sampleDocsChildren, kv.1.abs = true) := by
  have h1 := agent_hashes_missing_and_keys sampleFs ["app"] ⟨false, ["nope"]⟩
    ⟨false, ["nope"]⟩ [] []
  have h2 := agent_hashes_missing_and_keys sampleFs ["app"] ⟨false, ["docs"]⟩
    ⟨false, ["docs"]⟩ [] sampleDocsChildren
  have h3 := agent_hashes_missing_and_keys sampleFs ["app"] ⟨true, ["app", "docs"]⟩
    ⟨true, ["app", "docs"]⟩
    (gatherDirF (FsNode.count (FsNode.dir sampleDocsChildren))
      ["app", "docs"] sampleDocsChildren) sampleDocsChildren
  exact ⟨h1.1 rfl, h1.2.1 rfl, h2.2.2.1 rfl rfl, h3.2.2.2 rfl rfl⟩

end FluxVault
